import Mathlib

/-!
Shallow embedding of the include-graph-aware symbol/signature resolution
engine of an AutoIt editor extension (source: `src/src/util.js`,
`src/src/ai_symbols.js`, and the signature-help / definition providers).

JavaScript strings are modelled as `List Char`; JS regular expressions are
modelled by hand-written scanners that implement the exact matching
semantics (greedy runs, backtracking where it matters) of each concrete
pattern appearing in the source.  `\s` and `\w` are modelled over ASCII
(the source only ever feeds them AutoIt source text).
-/

namespace AutoItVSC

/-- JS `\s` (ASCII part): space, tab, LF, CR, VT, FF. -/
def jsWs (c : Char) : Bool :=
  c == ' ' || c == '\t' || c == '\n' || c == '\r' || c == '\x0b' || c == '\x0c'

/-- JS `\w`: `[A-Za-z0-9_]`. -/
def jsWord (c : Char) : Bool :=
  c.isAlpha || c.isDigit || c == '_'

/-- Index of the first non-whitespace character (vscode
`TextLine.firstNonWhitespaceCharacterIndex`); length if all whitespace. -/
def firstNonWsIdx : List Char → Nat
  | [] => 0
  | c :: t => if jsWs c then firstNonWsIdx t + 1 else 0

/-- JS `String.prototype.charAt` (as an `Option`: out of range gives the
empty string in JS, which compares unequal to every 1-char string). -/
def jsCharAt (cs : List Char) (i : Nat) : Option Char := cs.get? i

/-- vscode `TextLine.isEmptyOrWhitespace`. -/
def jsWsOnly (cs : List Char) : Bool := cs.all jsWs

/-- Does `cs` start with the literal characters of `pre_`? -/
def litAt : List Char → List Char → Bool
  | [], _ => true
  | _ :: _, [] => false
  | p :: ps, c :: cs => p == c && litAt ps cs

/-- Source `util.js` regex test `/^\s*#(cs|ce|comments-start|comments-end)/`
on a line's text. -/
def blockCommentMarkerTest (cs : List Char) : Bool :=
  match cs.dropWhile (fun c => jsWs c) with
  | '#' :: r =>
      litAt "cs".data r || litAt "ce".data r ||
      litAt "comments-start".data r || litAt "comments-end".data r
  | _ => false

/-- Source `util.js` `isSkippableLine` (`line` is a vscode `TextLine`;
here the line's text).  Mirrors: return true on `isEmptyOrWhitespace`;
take `charAt(firstNonWhitespaceCharacterIndex)`; `;` is skippable; `#` is
skippable unless the block-comment-marker regex matches; else not. -/
def isSkippableLine (text : List Char) : Bool :=
  if jsWsOnly text then true
  else
    let firstChar := jsCharAt text (firstNonWsIdx text)
    if firstChar = some ';' then true
    else if firstChar = some '#' then
      if blockCommentMarkerTest text then false else true
    else false

theorem charAt_firstNonWsIdx (cs : List Char) :
    jsCharAt cs (firstNonWsIdx cs) = cs.find? (fun c => !jsWs c) := by
  induction cs with
  | nil => rfl
  | cons c t ih =>
      by_cases h : jsWs c
      · simpa [jsCharAt, firstNonWsIdx, h, List.find?] using ih
      · simp [jsCharAt, firstNonWsIdx, h, List.find?]

/-- JS `Array.prototype.indexOf` returning `-1` when absent
(over string arrays, as in `arraysMatch` of the signature-help provider). -/
def jsIndexOf [BEq A] (arr : List A) (v : A) : Int :=
  match arr with
  | [] => -1
  | x :: t =>
      if x == v then 0
      else
        let i := jsIndexOf t v
        if i == -1 then -1 else i + 1

/-- Source (signature-help provider, `part_000`) `arraysMatch`:
`arr1.length === arr2.length && arr1.some(v => arr2.indexOf(v) <= 0)`. -/
def arraysMatch [BEq A] (arr1 arr2 : List A) : Bool :=
  arr1.length == arr2.length && arr1.any (fun v => jsIndexOf arr2 v ≤ 0)

/-- JS `String.prototype.split` on a one-character separator
(keeps empty segments, always returns at least one segment). -/
def splitOnChar (sep : Char) : List Char → List (List Char)
  | [] => [[]]
  | c :: t =>
      let r := splitOnChar sep t
      if c == sep then [] :: r
      else
        match r with
        | [] => [[c]]
        | h :: t' => (c :: h) :: t'

/-- JS `String.prototype.trim` (ASCII whitespace). -/
def jsTrim (cs : List Char) : List Char :=
  ((cs.dropWhile jsWs).reverse.dropWhile jsWs).reverse

/-- Source `util.js` `getParams` name cleaning: `.replace(/^ByRef\s*/, '')`
(case-sensitive, strips the qualifier and any following whitespace). -/
def stripByRef (cs : List Char) : List Char :=
  if litAt "ByRef".data cs then (cs.drop 5).dropWhile jsWs else cs

/-- The stored name of one comma-separated parameter entry:
`param.split('=')[0].trim().replace(/^ByRef\s*/, '')`. -/
def paramEntryName (param : List Char) : List Char :=
  stripByRef (jsTrim ((splitOnChar '=' param).headD []))

/-- A JS object keyed by strings, in insertion order.  `o[k] = v` replaces
the (unique) existing slot in place or appends a fresh one. -/
def jsSet : List (List Char × V) → List Char → V → List (List Char × V)
  | [], k, v => [(k, v)]
  | e :: t, k, v => if e.1 == k then (k, v) :: t else e :: jsSet t k v

/-- JS property read (first slot with the key; keys are unique when the
object is built with `jsSet` from `[]`, making "first" irrelevant). -/
def jsGet : List (List Char × V) → List Char → Option V
  | [], _ => none
  | e :: t, k => if e.1 == k then some e.2 else jsGet t k

/-- `Object.keys`, in slot order. -/
def jsKeys (o : List (List Char × V)) : List (List Char) := o.map (·.1)

/-- One parameter record of a signature: `{ label, documentation }`. -/
structure ParamInfo where
  pLabel : List Char
  pDoc : List Char
  deriving DecidableEq, Repr

/-- Source `util.js` `extractParamDocumentation`, the attempt of the regex
`;\s*(?:Parameters\s*\.+:)?\s*(?:\$param)\s+-\s(?<documentation>.+)` at the
head of `cs` (the `\$`-escape makes the interpolated parameter name a
literal; `(.+)` captures the rest of the dot-line). -/
def matchParamDocAt (param : List Char) (cs : List Char) : Option (List Char) :=
  match cs with
  | ';' :: r =>
      let r1 := r.dropWhile jsWs
      -- `\s*` then the literal parameter name, `\s+`, `-`, one `\s`, capture
      let tryFrom : List Char → Option (List Char) := fun s =>
        let s1 := s.dropWhile jsWs
        if litAt param s1 then
          let s2 := s1.drop param.length
          let ws := s2.takeWhile jsWs
          if ws.length ≥ 1 then
            match s2.drop ws.length with
            | '-' :: c :: s4 =>
                if jsWs c then
                  let doc := s4.takeWhile (fun c => !(c == '\n' || c == '\r'))
                  if doc.length ≥ 1 then some doc else none
                else none
            | _ => none
          else none
        else none
      -- greedy optional group `(?:Parameters\s*\.+:)?`, with backtracking
      let afterOpt : Option (List Char) :=
        if litAt "Parameters".data r1 then
          let r2 := (r1.drop 10).dropWhile jsWs
          let dots := r2.takeWhile (fun c => c == '.')
          if dots.length ≥ 1 then
            match r2.drop dots.length with
            | ':' :: r4 => some r4
            | _ => none
          else none
        else none
      match afterOpt with
      | some r2 =>
          match tryFrom r2 with
          | some d => some d
          | none => tryFrom r1
      | none => tryFrom r1
  | _ => none

/-- First match of `matchParamDocAt` scanning left to right. -/
def scanParamDoc (param : List Char) : List Char → Option (List Char)
  | [] => none
  | c :: t =>
      match matchParamDocAt param (c :: t) with
      | some d => some d
      | none => scanParamDoc param t

/-- Source `util.js` `extractParamDocumentation(text, paramEntry, headerIndex)`;
`headerIndex` is `none` for JS `-1` (no header found). -/
def extractParamDocumentation (text : List Char) (paramEntry : List Char)
    (headerIndex : Option Nat) : List Char :=
  match headerIndex with
  | none => []
  | some i => (scanParamDoc paramEntry (text.drop i)).getD []

/-- Loop body of `getParams`: store
`params[paramEntry] = { label: paramEntry, documentation: paramDoc }`. -/
def getParamsStep (text : List Char) (headerIndex : Option Nat)
    (params : List (List Char × ParamInfo)) (param : List Char) :
    List (List Char × ParamInfo) :=
  let paramEntry := paramEntryName param
  let paramDoc := extractParamDocumentation text paramEntry headerIndex
  jsSet params paramEntry ⟨paramEntry, paramDoc⟩

/-- Source `util.js` `getParams(paramText, text, headerIndex)`. -/
def getParams (paramText text : List Char) (headerIndex : Option Nat) :
    List (List Char × ParamInfo) :=
  if paramText.isEmpty then []
  else (splitOnChar ',' paramText).foldl (getParamsStep text headerIndex) []

theorem jsGet_jsSet_self (o : List (List Char × V)) (k : List Char) (v : V) :
    jsGet (jsSet o k v) k = some v := by
  induction o with
  | nil => simp [jsSet, jsGet]
  | cons e t ih =>
      by_cases h : (e.1 == k) = true
      · simp [jsSet, jsGet, h]
      · simp only [jsSet, jsGet, h, Bool.false_eq_true, if_false]
        exact ih

theorem jsGet_jsSet_other (o : List (List Char × V)) (k k' : List Char) (v : V)
    (h : k' ≠ k) : jsGet (jsSet o k v) k' = jsGet o k' := by
  induction o with
  | nil =>
      have : (k == k') = false := by simp [beq_iff_eq]; exact fun he => h he.symm
      simp [jsSet, jsGet, this]
  | cons e t ih =>
      by_cases he : (e.1 == k) = true
      · have hk : (k == k') = false := by simp [beq_iff_eq]; exact fun he2 => h he2.symm
        have he1 : (e.1 == k') = false := by
          have := beq_iff_eq.mp he
          simp [beq_iff_eq, this]
          exact fun he2 => h he2.symm
        simp [jsSet, jsGet, he, hk, he1]
      · simp only [jsSet, jsGet, he, Bool.false_eq_true, if_false]
        by_cases he' : (e.1 == k') = true
        · simp [jsGet, he']
        · simp [jsGet, he', ih]

theorem jsGet_jsSet_isSome (o : List (List Char × V)) (k k' : List Char) (v : V)
    (h : (jsGet o k').isSome = true) : (jsGet (jsSet o k v) k').isSome = true := by
  by_cases hk : k' = k
  · subst hk; simp [jsGet_jsSet_self]
  · rw [jsGet_jsSet_other o k k' v hk]; exact h

/-- `(.+)[\r\n]` at `rest`: capture one-or-more dot-line characters
followed by a CR or LF. -/
def dotLineCapture (rest : List Char) : Option (List Char) :=
  match rest with
  | [] => none
  | c :: _ =>
      if c == '\n' || c == '\r' then none
      else
        let r := rest.takeWhile (fun c => !(c == '\n' || c == '\r'))
        if (rest.drop r.length).isEmpty then none else some r

/-- `\s+(?<g>.+)[\r\n]` at `s`, with the regex's greedy backtracking on
`\s+`: try the longest whitespace run first, then shorter ones (never
zero). -/
def wsThenDotLine (s : List Char) : Option (List Char) :=
  go (s.takeWhile jsWs).length s
where
  go : Nat → List Char → Option (List Char)
    | 0, _ => none
    | k + 1, s =>
        match dotLineCapture (s.drop (k + 1)) with
        | some r => some r
        | none => go k s

/-- `\s*\.+:` at `s`: whitespace, one-or-more dots, a colon; returns the
rest. -/
def wsDotsColon (s : List Char) : Option (List Char) :=
  let s1 := s.dropWhile jsWs
  let dots := s1.takeWhile (fun c => c == '.')
  if dots.length ≥ 1 then
    match s1.drop dots.length with
    | ':' :: r => some r
    | _ => none
  else none

/-- Attempt of the source `util.js` `getHeaderRegex(functionName)` pattern
`;\s*Name\s*\.+:\s+NAME\s*[\r\n];\s+Description\s*\.+:\s+(?<description>.+)[\r\n]`
at the head of `cs`; returns the description capture. -/
def matchHeaderAt (name : List Char) (cs : List Char) : Option (List Char) :=
  match cs with
  | ';' :: r =>
      let r1 := r.dropWhile jsWs
      if litAt "Name".data r1 then
        match wsDotsColon (r1.drop 4) with
        | none => none
        | some r2 =>
            -- `\s+NAME`
            let ws := r2.takeWhile jsWs
            if ws.length ≥ 1 ∧ litAt name (r2.drop ws.length) then
              let r3 := (r2.drop ws.length).drop name.length
              -- `\s*[\r\n];`: a nonempty whitespace run ending in CR/LF,
              -- directly followed by the second line's `;`
              let w := r3.takeWhile jsWs
              if w.length ≥ 1 ∧ (w.getLast? = some '\n' ∨ w.getLast? = some '\r') then
                match r3.drop w.length with
                | ';' :: r4 =>
                    let ws2 := r4.takeWhile jsWs
                    if ws2.length ≥ 1 ∧ litAt "Description".data (r4.drop ws2.length) then
                      match wsDotsColon ((r4.drop ws2.length).drop 11) with
                      | none => none
                      | some r5 => wsThenDotLine r5
                    else none
                | _ => none
              else none
            else none
      else none
  | _ => none

/-- JS `fileText.match(headerRegex)` (non-global): index and description
group of the first match, scanning left to right. -/
def findHeaderAux (name : List Char) : List Char → Nat → Option (Nat × List Char)
  | [], _ => none
  | c :: t, i =>
      match matchHeaderAt name (c :: t) with
      | some d => some (i, d)
      | none => findHeaderAux name t (i + 1)

/-- First match of the structured header comment for `name` in `text`. -/
def findHeader (name text : List Char) : Option (Nat × List Char) :=
  findHeaderAux name text 0

/-- A signature record `{ label, documentation, params }`. -/
structure FunctionSignature where
  sigLabel : List Char
  documentation : List Char
  params : List (List Char × ParamInfo)
  deriving DecidableEq, Repr

/-- Result of `buildFunctionSignature`: function name plus its object. -/
structure FunctionData where
  functionName : List Char
  functionObject : FunctionSignature
  deriving DecidableEq, Repr

/-- Source `util.js` `buildFunctionSignature(functionMatch, fileText, fileName)`;
the three match groups are passed explicitly (`1`: label, `2`: name,
`3`: params text).  `headerMatch ? headerMatch.index : -1` is modelled as
`Option Nat`. -/
def buildFunctionSignature (functionLabel functionName paramsText fileText
    fileName : List Char) : FunctionData :=
  let headerMatch := findHeader functionName fileText
  let description :=
    match headerMatch with
    | some hm => hm.2 ++ ['\r']
    | none => []
  let functionDocumentation := description ++ ("Included from ".data ++ fileName)
  let functionIndex : Option Nat := headerMatch.map (·.1)
  ⟨functionName,
    ⟨functionLabel, functionDocumentation, getParams paramsText fileText functionIndex⟩⟩

/-- A filesystem snapshot: path → file contents (models `fs.existsSync`
and `fs.readFileSync` over the source files the extension probes). -/
structure FS where
  entries : List (List Char × List Char)

/-- `fs.readFileSync(...).toString()` as an `Option`. -/
def FS.readText (fs : FS) (p : List Char) : Option (List Char) :=
  (fs.entries.find? (fun e => e.1 == p)).map (·.2)

/-- `fs.existsSync`. -/
def FS.existsSync (fs : FS) (p : List Char) : Bool := (fs.readText p).isSome

/-- The paths present in the snapshot. -/
def FS.paths (fs : FS) : List (List Char) := fs.entries.map (·.1)

/-- `path.normalize(iPath + '\\') + file` of `findFilepath`, for directory
paths already in backslash-normal form (no `.`/`..` segments): ensure one
trailing backslash, then append the file spec. -/
def normJoin (iPath file : List Char) : List Char :=
  (if iPath.getLast? = some '\\' then iPath else iPath ++ ['\\']) ++ file

/-- `includePaths.push(includePaths.shift())` on the copied array (the
`library = false` branch of `findFilepath`).  On `[]`, JS would push
`undefined` and later probe the literal path `"undefined\\" + file`; the
claims are settled for nonempty configured path lists. -/
def moveHeadToEnd : List (List Char) → List (List Char)
  | [] => []
  | h :: t => t ++ [h]

/-- The `includePaths.some(iPath => ...)` probe loop of `findFilepath`:
first constructed path that exists, else JS `false` (here `none`). -/
def probePaths (fs : FS) (file : List Char) : List (List Char) → Option (List Char)
  | [] => none
  | ip :: rest =>
      let newPath := normJoin ip file
      if fs.existsSync newPath then some newPath else probePaths fs file rest

/-- Source `ai_config` `findFilepath(file, library = true)`: copy the
configured include paths, rotate when `library` is false, probe in
order. -/
def findFilepath (fs : FS) (includePaths : List (List Char)) (file : List Char)
    (library : Bool) : Option (List Char) :=
  let ips := if library then includePaths else moveHeadToEnd includePaths
  probePaths fs file ips

theorem probePaths_eq_find (fs : FS) (file : List Char) (l : List (List Char)) :
    probePaths fs file l =
      (l.map (fun d => normJoin d file)).find? fs.existsSync := by
  induction l with
  | nil => rfl
  | cons ip rest ih =>
      by_cases h : fs.existsSync (normJoin ip file) = true
      · simp [probePaths, h, List.find?]
      · simp only [probePaths, h, Bool.false_eq_true, if_false, List.map_cons,
          List.find?]
        exact ih

/-- `path.dirname` (win32) for backslash-separated paths: everything
before the last `\`, or `.` if there is none. -/
def jsDirname (p : List Char) : List Char :=
  match p.reverse.findIdx? (· == '\\') with
  | none => ['.']
  | some jr => p.take (p.length - 1 - jr)

/-- `includePath.charAt(0).toUpperCase() + includePath.slice(1)`. -/
def capitalizeFirst : List Char → List Char
  | [] => []
  | c :: t => c.toUpper :: t

/-- Source `util.js` `getIncludePath(fileOrPath, document)`: keep
drive-absolute specs (`x:...`), otherwise `path.join` with the directory
of the document's file name; then uppercase the first character. -/
def getIncludePath (fileOrPath docFileName : List Char) : List Char :=
  let includePath :=
    if fileOrPath.get? 1 = some ':' then fileOrPath
    else jsDirname docFileName ++ '\\' :: fileOrPath
  capitalizeFirst includePath

/-- `(.+)X` at the head of a dot-line: greedy capture up to the LAST
occurrence of the closing character `close_` within the current line,
at least one character captured. -/
def captureToLast (close_ : Char) (s : List Char) : Option (List Char) :=
  let dotRun := s.takeWhile (fun c => !(c == '\n' || c == '\r'))
  match dotRun.reverse.findIdx? (· == close_) with
  | none => none
  | some jr =>
      let len := dotRun.length - 1 - jr
      if len ≥ 1 then some (dotRun.take len) else none

/-- One line against `^\s*#include\s"(.+)"` (the relative-include pattern
local to `getIncludeScripts`); `^\s*#include\s<(.+)>` is the same with
angle brackets.  Matching is per text line (the multiline regexes are
applied with `m`; `\s` is taken within the line, which is faithful for
source files whose directives sit on one line). -/
def matchIncludeDirective (openC closeC : Char) (allowLeadWs : Bool)
    (line : List Char) : Option (List Char) :=
  let s := if allowLeadWs then line.dropWhile jsWs else line
  if litAt "#include".data s then
    match s.drop 8 with
    | c :: rest =>
        if jsWs c then
          match rest with
          | c2 :: rest2 => if c2 == openC then captureToLast closeC rest2 else none
          | [] => none
        else none
    | [] => none
  else none

/-- All captures of `/^\s*#include\s"(.+)"/gm` over a text. -/
def relIncludeCaptures (text : List Char) : List (List Char) :=
  (splitOnChar '\n' text).filterMap (matchIncludeDirective '"' '"' true)

/-- All captures of `/^\s*#include\s<(.+)>/gm` over a text. -/
def libIncludeCaptures (text : List Char) : List (List Char) :=
  (splitOnChar '\n' text).filterMap (matchIncludeDirective '<' '>' true)

/-- Relative-include resolution inside `getIncludeScripts`: try
`getIncludePath` against the open document's directory, else
`findFilepath(found[1], false)`. -/
def resolveRel (fs : FS) (includePaths : List (List Char))
    (docFileName found1 : List Char) : Option (List Char) :=
  let include0 := getIncludePath found1 docFileName
  if fs.existsSync include0 then some include0
  else findFilepath fs includePaths found1 false

/-- Library-include resolution inside `getIncludeScripts`. -/
def resolveLib (fs : FS) (includePaths : List (List Char))
    (found1 : List Char) : Option (List Char) :=
  findFilepath fs includePaths found1 false

/-- One iteration of a `while (found)` loop of `getIncludeScripts`:
resolve the directive; skip an unresolved one and an already-visited
path; otherwise push the path and recurse (`walkNext`) into the included
file's text. -/
def walkStep (walkNext : List Char → List (List Char) → List (List Char))
    (resolve : List Char → Option (List Char)) (fs : FS)
    (acc : List (List Char)) (found1 : List Char) : List (List Char) :=
  match resolve found1 with
  | none => acc
  | some f =>
      if acc.contains f then acc
      else walkNext ((fs.readText f).getD []) (acc ++ [f])

/-- One whole `while (found)` loop of `getIncludeScripts` over the
captures of its directive pattern. -/
def walkFold (walkNext : List Char → List (List Char) → List (List Char))
    (resolve : List Char → Option (List Char)) (fs : FS)
    (acc : List (List Char)) (items : List (List Char)) : List (List Char) :=
  items.foldl (walkStep walkNext resolve fs) acc

/-- Source `util.js` `getIncludeScripts(document, docText, scriptsToSearch)`,
with an explicit recursion budget `fuel` (the JS function recurses
unboundedly; the adequacy theorem shows any fuel of at least the number
of distinct not-yet-visited files on disk computes the fixed result). -/
def getIncludeScripts (fs : FS) (includePaths : List (List Char))
    (docFileName : List Char) : Nat → List Char → List (List Char) → List (List Char)
  | 0, _, acc => acc
  | fuel + 1, docText, acc =>
      let next := getIncludeScripts fs includePaths docFileName fuel
      let acc1 := walkFold next (resolveRel fs includePaths docFileName) fs acc
        (relIncludeCaptures docText)
      walkFold next (resolveLib fs includePaths) fs acc1 (libIncludeCaptures docText)

/-- Number of distinct on-disk paths not yet visited: bounds the
recursion depth of `getIncludeScripts`. -/
def includeMeasure (fs : FS) (acc : List (List Char)) : Nat :=
  (fs.paths.toFinset \ acc.toFinset).card

theorem listContains_iff (l : List (List Char)) (a : List Char) :
    l.contains a = true ↔ a ∈ l :=
  List.elem_iff

theorem existsSync_mem_paths {fs : FS} {p : List Char}
    (h : fs.existsSync p = true) : p ∈ fs.paths := by
  unfold FS.existsSync FS.readText at h
  cases hfind : fs.entries.find? (fun e => e.1 == p) with
  | none => rw [hfind] at h; simp at h
  | some e =>
      have hm := List.mem_of_find?_eq_some hfind
      have hkey := List.find?_some hfind
      have he : e.1 = p := by simpa using hkey
      exact he ▸ List.mem_map_of_mem (·.1) hm

theorem probePaths_mem {fs : FS} {file f : List Char} :
    ∀ {l : List (List Char)}, probePaths fs file l = some f → f ∈ fs.paths := by
  intro l
  induction l with
  | nil => intro h; cases h
  | cons ip rest ih =>
      intro h
      by_cases he : fs.existsSync (normJoin ip file) = true
      · simp only [probePaths, he, if_true] at h
        cases h
        exact existsSync_mem_paths he
      · simp only [probePaths, he, Bool.false_eq_true, if_false] at h
        exact ih h

theorem findFilepath_mem {fs : FS} {ips : List (List Char)} {file f : List Char}
    {lib : Bool} (h : findFilepath fs ips file lib = some f) : f ∈ fs.paths := by
  unfold findFilepath at h
  exact probePaths_mem h

theorem resolveRel_mem {fs : FS} {ips : List (List Char)} {doc x f : List Char}
    (h : resolveRel fs ips doc x = some f) : f ∈ fs.paths := by
  unfold resolveRel at h
  by_cases he : fs.existsSync (getIncludePath x doc) = true
  · simp only [he, if_true] at h
    cases h
    exact existsSync_mem_paths he
  · simp only [he, Bool.false_eq_true, if_false] at h
    exact findFilepath_mem h

theorem resolveLib_mem {fs : FS} {ips : List (List Char)} {x f : List Char}
    (h : resolveLib fs ips x = some f) : f ∈ fs.paths := by
  unfold resolveLib at h
  exact findFilepath_mem h

theorem walkStep_of_none {resolve : List Char → Option (List Char)} {x : List Char}
    (walkNext : List Char → List (List Char) → List (List Char)) (fs : FS)
    (acc : List (List Char)) (h : resolve x = none) :
    walkStep walkNext resolve fs acc x = acc := by
  unfold walkStep
  rw [h]

theorem walkStep_of_visited {resolve : List Char → Option (List Char)}
    {x f : List Char}
    (walkNext : List Char → List (List Char) → List (List Char)) (fs : FS)
    (acc : List (List Char)) (h : resolve x = some f)
    (hc : acc.contains f = true) :
    walkStep walkNext resolve fs acc x = acc := by
  unfold walkStep
  rw [h]
  exact if_pos hc

theorem walkStep_of_new {resolve : List Char → Option (List Char)} {x f : List Char}
    (walkNext : List Char → List (List Char) → List (List Char)) (fs : FS)
    (acc : List (List Char)) (h : resolve x = some f)
    (hc : ¬acc.contains f = true) :
    walkStep walkNext resolve fs acc x =
      walkNext ((fs.readText f).getD []) (acc ++ [f]) := by
  unfold walkStep
  rw [h]
  exact if_neg hc

theorem walkFold_append (fs : FS) (resolve : List Char → Option (List Char))
    (walkNext : List Char → List (List Char) → List (List Char))
    (hres : ∀ x f, resolve x = some f → f ∈ fs.paths)
    (hwn : ∀ text acc, ∃ new, walkNext text acc = acc ++ new ∧ ∀ p ∈ new, p ∈ fs.paths) :
    ∀ (items : List (List Char)) (acc : List (List Char)),
      ∃ new, walkFold walkNext resolve fs acc items = acc ++ new ∧
        ∀ p ∈ new, p ∈ fs.paths := by
  intro items
  induction items with
  | nil => intro acc; exact ⟨[], by simp [walkFold], by simp⟩
  | cons x xs ih =>
      intro acc
      have hstep : ∃ new0,
          walkStep walkNext resolve fs acc x = acc ++ new0 ∧
          ∀ p ∈ new0, p ∈ fs.paths := by
        cases hr : resolve x with
        | none => exact ⟨[], by rw [walkStep_of_none walkNext fs acc hr, List.append_nil], by simp⟩
        | some f =>
            by_cases hc : acc.contains f = true
            · exact ⟨[], by rw [walkStep_of_visited walkNext fs acc hr hc, List.append_nil],
                by simp⟩
            · rcases hwn ((fs.readText f).getD []) (acc ++ [f]) with ⟨n1, he, hp⟩
              refine ⟨f :: n1, ?_, ?_⟩
              · rw [walkStep_of_new walkNext fs acc hr hc, he, List.append_assoc,
                  List.singleton_append]
              · intro p hp2
                rcases List.mem_cons.mp hp2 with hp2 | hp2
                · exact hp2 ▸ hres x f hr
                · exact hp p hp2
      rcases hstep with ⟨new0, hstep, hmem0⟩
      rcases ih (acc ++ new0) with ⟨new2, hfold, hmem2⟩
      refine ⟨new0 ++ new2, ?_, ?_⟩
      · simp only [walkFold, List.foldl_cons] at hfold ⊢
        rw [hstep, hfold, List.append_assoc]
      · intro p hp
        rcases List.mem_append.mp hp with hp | hp
        · exact hmem0 p hp
        · exact hmem2 p hp

theorem walkFold_nodup (fs : FS) (resolve : List Char → Option (List Char))
    (walkNext : List Char → List (List Char) → List (List Char))
    (hwn : ∀ text acc, acc.Nodup → (walkNext text acc).Nodup) :
    ∀ (items : List (List Char)) (acc : List (List Char)),
      acc.Nodup → (walkFold walkNext resolve fs acc items).Nodup := by
  intro items
  induction items with
  | nil => intro acc h; simpa [walkFold] using h
  | cons x xs ih =>
      intro acc h
      simp only [walkFold, List.foldl_cons] at *
      cases hr : resolve x with
      | none =>
          rw [walkStep_of_none walkNext fs acc hr]
          exact ih acc h
      | some f =>
          by_cases hc : acc.contains f = true
          · rw [walkStep_of_visited walkNext fs acc hr hc]
            exact ih acc h
          · rw [walkStep_of_new walkNext fs acc hr hc]
            have hf : f ∉ acc := fun hm => hc ((listContains_iff acc f).mpr hm)
            have hnew : (acc ++ [f]).Nodup := by
              simp [List.nodup_append, h, hf]
            exact ih _ (hwn _ _ hnew)

/-- Global regex replacement by the empty string: scan left to right,
erase each (non-overlapping, leftmost) match, continue after it.
`matchLen` gives the length of a match attempt at the current position;
the patterns used here never match the empty string, so a reported
length of `0` is treated as no match. -/
def scrubAux (matchLen : List Char → Option Nat) : Nat → List Char → List Char
  | 0, _ => []
  | _ + 1, [] => []
  | fuel + 1, c :: rest =>
      match matchLen (c :: rest) with
      | some (n + 1) => scrubAux matchLen fuel (rest.drop n)
      | _ => c :: scrubAux matchLen fuel rest

/-- Entry point of `scrubAux` with always-sufficient fuel (every step
consumes at least one character, so `cs.length` steps finish the scan;
the fuel keeps the recursion structural so terms reduce in the kernel). -/
def scrub (matchLen : List Char → Option Nat) (cs : List Char) : List Char :=
  scrubAux matchLen cs.length cs

/-- `\w+\([^()]*\)` at the current position (a fully closed innermost
call: word run, `(`, non-paren run, `)`). -/
def matchFuncCallAt (cs : List Char) : Option Nat :=
  let w := cs.takeWhile jsWord
  if w.length ≥ 1 then
    match cs.drop w.length with
    | '(' :: rest =>
        let inner := rest.takeWhile (fun c => !(c == '(' || c == ')'))
        match rest.drop inner.length with
        | ')' :: _ => some (w.length + 1 + inner.length + 1)
        | _ => none
    | _ => none
  else none

/-- `q[^q]*q` at the current position (a complete quoted literal). -/
def matchQuotePairAt (q : Char) (cs : List Char) : Option Nat :=
  match cs with
  | c :: rest =>
      if c == q then
        let inner := rest.takeWhile (fun c => !(c == q))
        match rest.drop inner.length with
        | c2 :: _ => if c2 == q then some (inner.length + 2) else none
        | [] => none
      else none
  | [] => none

/-- `q[^q]*(?=$)` at the current position (an unterminated trailing
quoted literal reaching the end of the string). -/
def matchTrailingQuoteAt (q : Char) (cs : List Char) : Option Nat :=
  match cs with
  | c :: rest =>
      if c == q && !(rest.contains q) then some (1 + rest.length) else none
  | [] => none

/-- `\([^()]*\)` at the current position (a complete paren group). -/
def matchParenGroupAt (cs : List Char) : Option Nat :=
  match cs with
  | '(' :: rest =>
      let inner := rest.takeWhile (fun c => !(c == '(' || c == ')'))
      match rest.drop inner.length with
      | ')' :: _ => some (inner.length + 2)
      | _ => none
  | _ => none

/-- `.replace(/\({2,}/g, '(')`: collapse each run of two or more
consecutive open parens into one. -/
def collapseOpenParensAux : Nat → List Char → List Char
  | 0, _ => []
  | _ + 1, [] => []
  | fuel + 1, c :: rest =>
      if c == '(' then
        let run := rest.takeWhile (fun c => c == '(')
        if run.length ≥ 1 then '(' :: collapseOpenParensAux fuel (rest.drop run.length)
        else '(' :: collapseOpenParensAux fuel rest
      else c :: collapseOpenParensAux fuel rest

/-- Entry point of `collapseOpenParensAux` with always-sufficient fuel. -/
def collapseOpenParens (cs : List Char) : List Char :=
  collapseOpenParensAux cs.length cs

/-- Source (signature-help provider, `part_000`) `getParsableCode`: the
seven chained global replacements reducing a partial line of code to its
live open call context. -/
def getParsableCode (code : List Char) : List Char :=
  collapseOpenParens
    (scrub matchParenGroupAt
      (scrub (matchTrailingQuoteAt '\'')
        (scrub (matchTrailingQuoteAt '"')
          (scrub (matchQuotePairAt '\'')
            (scrub (matchQuotePairAt '"')
              (scrub matchFuncCallAt code))))))

/-- Split on characters satisfying `p` (every separator splits; empty
segments kept). -/
def splitOnPred (p : Char → Bool) : List Char → List (List Char)
  | [] => [[]]
  | c :: t =>
      let r := splitOnPred p t
      if p c then [] :: r
      else
        match r with
        | [] => [[c]]
        | h :: t' => (c :: h) :: t'

/-- The maximal runs of `\w` characters of a string, in order. -/
def wordRunsAux : Nat → List Char → List (List Char)
  | 0, _ => []
  | _ + 1, [] => []
  | fuel + 1, c :: rest =>
      if jsWord c then
        let w := (c :: rest).takeWhile jsWord
        w :: wordRunsAux fuel ((c :: rest).drop w.length)
      else wordRunsAux fuel rest

/-- The maximal runs of `\w` characters of a string, in order
(`wordRunsAux` with always-sufficient fuel). -/
def wordRuns (cs : List Char) : List (List Char) :=
  wordRunsAux cs.length cs

/-- `seg.match(/(.*)\b(\w+)/)`, group 2: JS `.` matches neither LF nor
CR, so the match lands in the first such "dot-line" containing a word
character, and greedy backtracking of `(.*)` makes group 2 its last
maximal word run. -/
def matchTrailingWord (seg : List Char) : Option (List Char) :=
  match (splitOnPred (fun c => c == '\n' || c == '\r') seg).find?
      (fun l => l.any jsWord) with
  | some l => (wordRuns l).getLast?
  | none => none

/-- Source (signature-help provider, `part_000`) `getCurrentFunction`:
split the reduced code on `(`, take the second-to-last segment, extract
the trailing identifier. -/
def getCurrentFunction (code : List Char) : Option (List Char) :=
  let parenSplit := splitOnChar '(' code
  if parenSplit.length > 1 then
    matchTrailingWord ((parenSplit.get? (parenSplit.length - 2)).getD [])
  else none

/-- JS `String.prototype.lastIndexOf` for a single character. -/
def lastIndexOfChar (c : Char) (cs : List Char) : Option Nat :=
  match cs.reverse.findIdx? (· == c) with
  | none => none
  | some jr => some (cs.length - 1 - jr)

/-- Count of the matches of `/(?!\B["'][^"']*),(?![^"']*['"]\B)/g`.
The first lookahead is vacuous (it would need the comma position to hold
a quote).  The second excludes a comma exactly when some quote follows
with no earlier quote in between and that quote is followed by a
non-word character or the end (`\B` after a non-word quote). -/
def countNonStringCommas : List Char → Nat
  | [] => 0
  | c :: rest =>
      let cnt := countNonStringCommas rest
      if c == ',' then
        match rest.drop ((rest.takeWhile
            (fun c => !(c == '"' || c == '\''))).length) with
        | [] => cnt + 1
        | _ :: [] => cnt
        | _ :: c2 :: _ => if jsWord c2 then cnt + 1 else cnt
      else cnt

/-- Source (signature-help provider, `part_000`) `countCommas`: slice
from the last open paren (JS `slice(-1)` — the final character — when
there is none) and count non-string commas there. -/
def countCommas (code : List Char) : Nat :=
  let sliced :=
    match lastIndexOfChar '(' code with
    | some j => code.drop j
    | none => code.drop (code.length - 1)
  countNonStringCommas sliced

/-- Source (signature-help provider, `part_000`) `getCallInfo` without
the editor plumbing: reduce the text left of the cursor, then extract
the enclosing function name and the active argument index. -/
def getCallInfo (lineUpToCursor : List Char) : Option (List Char) × Nat :=
  let cleanCode := getParsableCode lineUpToCursor
  (getCurrentFunction cleanCode, countCommas cleanCode)

/-- Case-insensitive literal match at the head (for `i`-flagged regex
literals; patterns are supplied in lower case). -/
def litAtCI : List Char → List Char → Bool
  | [], _ => true
  | _ :: _, [] => false
  | p :: ps, c :: cs => (p.toLower == c.toLower) && litAtCI ps cs

/-- `(.*)X` at the head of a dot-line: greedy capture up to the last
occurrence of `close_` in the line, possibly empty. -/
def captureToLastOrEmpty (close_ : Char) (s : List Char) : Option (List Char) :=
  let dotRun := s.takeWhile (fun c => !(c == '\n' || c == '\r'))
  match dotRun.reverse.findIdx? (· == close_) with
  | none => none
  | some jr => some (dotRun.take (dotRun.length - 1 - jr))

/-- One line against the source `util.js` `functionDefinitionRegex`
`/^[\t ]*(?:volatile[\t ]+)?Func[\t ]+((\w+)[\t ]*\((.*)\))/gim`;
returns (label group 1, name group 2, params group 3). -/
def matchFunctionDefLine (line : List Char) :
    Option (List Char × List Char × List Char) :=
  let s := line.dropWhile (fun c => c == '\t' || c == ' ')
  let core : List Char → Option (List Char × List Char × List Char) := fun u =>
    if litAtCI "func".data u then
      let u2 := u.drop 4
      let ws := u2.takeWhile (fun c => c == '\t' || c == ' ')
      if ws.length ≥ 1 then
        let u3 := u2.drop ws.length
        let name := u3.takeWhile jsWord
        if name.length ≥ 1 then
          let u4 := u3.drop name.length
          let ws2 := u4.takeWhile (fun c => c == '\t' || c == ' ')
          match u4.drop ws2.length with
          | '(' :: u5 =>
              match captureToLastOrEmpty ')' u5 with
              | some params =>
                  some (name ++ ws2 ++ '(' :: (params ++ [')']), name, params)
              | none => none
          | _ => none
        else none
      else none
    else none
  -- greedy optional `(?:volatile[\t ]+)?`, with backtracking
  let afterVol : Option (List Char) :=
    if litAtCI "volatile".data s then
      let s2 := s.drop 8
      let ws := s2.takeWhile (fun c => c == '\t' || c == ' ')
      if ws.length ≥ 1 then some (s2.drop ws.length) else none
    else none
  match afterVol with
  | some u =>
      match core u with
      | some r => some r
      | none => core s
  | none => core s

/-- All matches of `functionDefinitionRegex` over a text. -/
def functionDefMatches (text : List Char) :
    List (List Char × List Char × List Char) :=
  (splitOnChar '\n' text).filterMap matchFunctionDefLine

/-- The signature-collection loop shared by `getLocalSigs` and
`getIncludeData`: run `functionDefinitionRegex` over the text, build
each signature, store it under its function name (last definition of a
name wins). -/
def extractSignatures (fileText fileLabel : List Char) :
    List (List Char × FunctionSignature) :=
  (functionDefMatches fileText).foldl
    (fun functions m =>
      let fd := buildFunctionSignature m.1 m.2.1 m.2.2 fileText fileLabel
      jsSet functions fd.functionName fd.functionObject)
    []

/-- Source (signature-help provider, `part_000`) `getLocalSigs(doc)`:
signatures parsed from the open document's own text. -/
def getLocalSigs (text docFileName : List Char) :
    List (List Char × FunctionSignature) :=
  extractSignatures text docFileName

/-- All captures of the source `util.js` `includePattern`
`/^#include\s"(.+)"/gm` (no leading whitespace allowed). -/
def includePatternCaptures (text : List Char) : List (List Char) :=
  (splitOnChar '\n' text).filterMap (matchIncludeDirective '"' '"' false)

/-- One line against the source `util.js` `libraryIncludePattern`
`/^#include\s+<([\w.]+\.au3)>/gm`. -/
def matchLibraryIncludeLine (line : List Char) : Option (List Char) :=
  if litAt "#include".data line then
    let s := line.drop 8
    let ws := s.takeWhile jsWs
    if ws.length ≥ 1 then
      match s.drop ws.length with
      | '<' :: rest =>
          let w := rest.takeWhile (fun c => jsWord c || c == '.')
          if w.length ≥ 5 && litAt ".au3".data (w.drop (w.length - 4)) then
            match rest.drop w.length with
            | '>' :: _ => some w
            | _ => none
          else none
      | _ => none
    else none
  else none

/-- All captures of `libraryIncludePattern` over a text. -/
def libraryIncludePatternCaptures (text : List Char) : List (List Char) :=
  (splitOnChar '\n' text).filterMap matchLibraryIncludeLine

/-- JS `String.prototype.replace` with a plain-string pattern: remove
the first occurrence of `pat` (used for `.replace('.au3', '')`). -/
def removeFirstSub (pat : List Char) : List Char → List Char
  | [] => []
  | c :: rest =>
      if litAt pat (c :: rest) then rest.drop (pat.length - 1)
      else c :: removeFirstSub pat rest

/-- `Object.assign(target, src)`: fold every slot of `src` into
`target`, last write winning. -/
def jsAssign (a b : List (List Char × V)) : List (List Char × V) :=
  b.foldl (fun o kv => jsSet o kv.1 kv.2) a

/-- Source `util.js` `getIncludeData(fileName, doc)`: resolve the file
spec against the document directory, else via `findFilepath`; read it
and collect its signatures labelled with the file spec.  (When both
resolutions fail, JS `getIncludeText(false)` throws; the model reads the
empty text.) -/
def getIncludeData (fs : FS) (ips : List (List Char))
    (fileName docFileName : List Char) : List (List Char × FunctionSignature) :=
  let filePath0 := getIncludePath fileName docFileName
  let filePath :=
    if fs.existsSync filePath0 then some filePath0
    else findFilepath fs ips fileName false
  let fileData := (filePath.bind fs.readText).getD []
  extractSignatures fileData fileName

/-- Source (signature-help provider, `part_000`) `getIncludes(doc)` over
the module state `(currentIncludeFiles, includes)`: rebuild the quoted
includes' table when `arraysMatch` says the lists differ, then overlay
the data of each non-default library include; returns the new `includes`
object and state. -/
def getIncludes (fs : FS) (ips : List (List Char)) (udfs : List (List Char))
    (docFileName text : List Char)
    (currentIncludeFiles : List (List Char))
    (includes0 : List (List Char × FunctionSignature)) :
    List (List Char × FunctionSignature) × List (List Char) :=
  let includesCheck := includePatternCaptures text
  let st :=
    if arraysMatch includesCheck currentIncludeFiles then
      (includes0, currentIncludeFiles)
    else
      (includesCheck.foldl
        (fun inc script => jsAssign inc (getIncludeData fs ips script docFileName))
        [],
       includesCheck)
  let includes2 := (libraryIncludePatternCaptures text).foldl
    (fun inc cap =>
      let filename := removeFirstSub ".au3".data cap
      if udfs.contains filename then inc
      else
        match findFilepath fs ips cap true with
        | some fullPath => jsAssign inc (getIncludeData fs ips fullPath docFileName)
        | none => inc)
    st.1
  (includes2, st.2)

/-- The merged table of `provideSignatureHelp`:
`{ ...defaultSigs, ...includes, ...locals }`. -/
def allSignatures (defaultSigs includes locals : List (List Char × V)) :
    List (List Char × V) :=
  jsAssign (jsAssign (jsAssign [] defaultSigs) includes) locals

/-- Lookup of the LAST slot with a key (what overlay-merging a source
into a fresh object leaves visible). -/
def jsGetLast (o : List (List Char × V)) (k : List Char) : Option V :=
  jsGet o.reverse k

/-- JS `a ?? b` / first-of chaining used to state overlay precedence. -/
def optOr (a b : Option V) : Option V :=
  match a with
  | some v => some v
  | none => b

/-! ### Symbol extraction (`src/src/ai_symbols.js`) -/

/-- A JS string-ish value as stored/compared for `containerName`:
a string, `null` (the `createVariableSymbol` destructuring default), or
`undefined` (`({}).name`).  `===` is plain equality of these values. -/
inductive JSStr where
  | str (s : List Char)
  | jsnull
  | undef
  deriving DecidableEq, Repr

/-- The `vscode.SymbolKind` values used by the extractor. -/
inductive SymKind where
  | function
  | variable
  | constant
  | enumMember
  | namespaceK
  deriving DecidableEq, Repr

/-- A `SymbolInformation`: name, kind (the JS code can in principle pass
`undefined` around for a variable kind, hence `Option`), containerName,
and the location's range as ((line, character), (line, character)). -/
structure Sym where
  name : List Char
  kind : Option SymKind
  containerName : JSStr
  range : (Nat × Nat) × (Nat × Nat)
  deriving DecidableEq, Repr

/-- `(line, character)` order on positions. -/
def posLe (a b : Nat × Nat) : Bool :=
  a.1 < b.1 || (a.1 == b.1 && a.2 ≤ b.2)

/-- `vscode.Range.contains` for a range argument. -/
def rangeContains (outer inner : (Nat × Nat) × (Nat × Nat)) : Bool :=
  posLe outer.1 inner.1 && posLe inner.2 outer.2

/-- `TextDocument.positionAt` for LF-separated text. -/
def positionAt (text : List Char) (offset : Nat) : Nat × Nat :=
  let pre := text.take offset
  let line := pre.count '\n'
  let char :=
    match lastIndexOfChar '\n' pre with
    | some j => pre.length - (j + 1)
    | none => pre.length
  (line, char)

/-- Offset of the start of line `n` (LF-separated text split into
`lines`). -/
def lineStartOffset (lines : List (List Char)) (n : Nat) : Nat :=
  ((lines.take n).map (fun l => l.length + 1)).sum

/-- Generic left-to-right scan: the first suffix position at which the
matcher succeeds, with its result. -/
def scanFrom (f : List Char → Option A) : List Char → Nat → Option (Nat × A)
  | [], i =>
      match f [] with
      | some a => some (i, a)
      | none => none
  | c :: t, i =>
      match f (c :: t) with
      | some a => some (i, a)
      | none => scanFrom f t (i + 1)

/-- Is the character a tab or space (`[\t ]`)? -/
def tabSp (c : Char) : Bool := c == '\t' || c == ' '

/-- Source `ai_symbols.js` `commentEndRegex` `/^\s*#(?:ce|comments-end)/`. -/
def commentEndTest (cs : List Char) : Bool :=
  match cs.dropWhile jsWs with
  | '#' :: r => litAt "ce".data r || litAt "comments-end".data r
  | _ => false

/-- Source `ai_symbols.js` `commentStartRegex` `/^\s*#(?:cs|comments-start)/`. -/
def commentStartTest (cs : List Char) : Bool :=
  match cs.dropWhile jsWs with
  | '#' :: r => litAt "cs".data r || litAt "comments-start".data r
  | _ => false

/-- Source `ai_symbols.js` `continuationRegex` `/\s_\b\s*(;.*)?\s*/` as a
test: somewhere a whitespace, an underscore, and a word boundary (the
optional tail always matches). -/
def continuationTest : List Char → Bool
  | c1 :: c2 :: rest =>
      if jsWs c1 && c2 == '_' &&
          (match rest with
            | [] => true
            | c3 :: _ => !jsWord c3) then true
      else continuationTest (c2 :: rest)
  | _ => false

/-- Source `util.js` `functionPattern`
`/^[\t ]*(?:volatile[\t ]+)?Func[\t ]+(\w+)[\t ]*\(/i` against one line;
returns (full match `[0]`, name group `[1]`). -/
def matchFunctionPattern (line : List Char) : Option (List Char × List Char) :=
  let lead := line.takeWhile tabSp
  let s := line.drop lead.length
  let core : Nat → List Char → Option (List Char × List Char) := fun preLen u =>
    if litAtCI "func".data u then
      let u2 := u.drop 4
      let ws := u2.takeWhile tabSp
      if ws.length ≥ 1 then
        let u3 := u2.drop ws.length
        let name := u3.takeWhile jsWord
        if name.length ≥ 1 then
          let u4 := u3.drop name.length
          let ws2 := u4.takeWhile tabSp
          match u4.drop ws2.length with
          | '(' :: _ =>
              some (line.take
                  (lead.length + preLen + 4 + ws.length + name.length + ws2.length + 1),
                name)
          | _ => none
        else none
      else none
    else none
  let afterVol : Option (Nat × List Char) :=
    if litAtCI "volatile".data s then
      let s2 := s.drop 8
      let ws := s2.takeWhile tabSp
      if ws.length ≥ 1 then some (8 + ws.length, s2.drop ws.length) else none
    else none
  match afterVol with
  | some (preLen, u) =>
      match core preLen u with
      | some r => some r
      | none => core 0 s
  | none => core 0 s

/-- The pattern of `createFunctionSymbol`
`[\t ]*(?:volatile[\t ]+)?Func[\t ]+\b(NAME+\b).*?(EndFunc)` (flags
`gsi`) at the head of `cs`: on success returns (offset of the name
capture, its length, total match length). -/
def matchFuncBodyAt (name : List Char) (cs : List Char) : Option (Nat × Nat × Nat) :=
  let t0 := cs.takeWhile tabSp
  let u := cs.drop t0.length
  let core : Nat → List Char → Option (Nat × Nat × Nat) := fun preLen u =>
    if litAtCI "func".data u then
      let u2 := u.drop 4
      let ws := u2.takeWhile tabSp
      if ws.length ≥ 1 then
        let u3 := u2.drop ws.length
        let ini := name.dropLast
        if litAtCI ini u3 then
          let u4 := u3.drop ini.length
          match name.getLast? with
          | none => none
          | some lastC =>
              let run := u4.takeWhile (fun c => c.toLower == lastC.toLower)
              if run.length ≥ 1 &&
                  (match u4.drop run.length with
                    | [] => true
                    | c :: _ => !jsWord c) then
                let nameOff := t0.length + preLen + 4 + ws.length
                let nameLen := ini.length + run.length
                match scanFrom
                    (fun v => if litAtCI "endfunc".data v then some () else none)
                    (u4.drop run.length) 0 with
                | some (j, _) => some (nameOff, nameLen, nameOff + nameLen + j + 7)
                | none => none
              else none
        else none
      else none
    else none
  let afterVol : Option (Nat × List Char) :=
    if litAtCI "volatile".data u then
      let u2 := u.drop 8
      let ws := u2.takeWhile tabSp
      if ws.length ≥ 1 then some (8 + ws.length, u2.drop ws.length) else none
    else none
  match afterVol with
  | some (preLen, u') =>
      match core preLen u' with
      | some r => some r
      | none => core 0 u
  | none => core 0 u

/-- Source `ai_symbols.js` `createFunctionSymbol(functionName, doc,
lineNum)`: run the body pattern over the document text starting at the
line's offset; `null` (here `none`) when no `EndFunc` completes it. -/
def createFunctionSymbol (functionName docText : List Char) (startOffset : Nat) :
    Option Sym :=
  match scanFrom (matchFuncBodyAt functionName) (docText.drop startOffset)
      startOffset with
  | none => none
  | some (i, nameOff, nameLen, totalLen) =>
      some
        { name := ((docText.drop (i + nameOff)).take nameLen)
          kind := some SymKind.function
          containerName := JSStr.str []
          range := (positionAt docText i, positionAt docText (i + totalLen)) }

/-- Source `ai_symbols.js` `parseFunctionFromText`: the duplicate guard
checks `processedSymbols.has(funcName[0])` (the FULL match text) while
`processedSymbols.add(funcName[1])` stores the bare name. -/
structure SymState where
  result : List Sym
  processed : List (List Char)
  inComment : Bool
  inContinuation : Bool
  variableKind : Option SymKind
  deriving Repr

def parseFunctionFromText (docText : List Char) (lines : List (List Char))
    (lineNum : Nat) (st : SymState) : SymState :=
  let text := (lines.get? lineNum).getD []
  match matchFunctionPattern text with
  | none => st
  | some (full, name) =>
      if st.processed.contains full then st
      else
        match createFunctionSymbol name docText (lineStartOffset lines lineNum) with
        | none => st
        | some sym =>
            { st with
              result := st.result ++ [sym]
              processed := st.processed ++ [name] }

/-- Source `util.js` `AI_CONSTANTS`. -/
def AI_CONSTANTS : List (List Char) :=
  ["$MB_ICONERROR".data, "$MB_ICONINFORMATION".data, "$MB_YESNO".data,
   "$MB_TASKMODAL".data, "$IDYES".data, "$IDNO".data]

/-- All full matches of the source `util.js` `variablePattern`
`/(?:["'].*?["'])|(?:;.*)|(\$\w+)/g` over a line (with fuel for
structural recursion; each step consumes at least one character). -/
def variableMatchesAux : Nat → List Char → List (List Char)
  | 0, _ => []
  | _ + 1, [] => []
  | fuel + 1, c :: rest =>
      if c == '"' || c == '\'' then
        let dotRun := rest.takeWhile (fun c => !(c == '\n' || c == '\r'))
        match dotRun.findIdx? (fun c => c == '"' || c == '\'') with
        | some j =>
            (c :: rest.take (j + 1)) :: variableMatchesAux fuel (rest.drop (j + 1))
        | none => variableMatchesAux fuel rest
      else if c == ';' then
        let run := rest.takeWhile (fun c => !(c == '\n' || c == '\r'))
        (c :: run) :: variableMatchesAux fuel (rest.drop run.length)
      else if c == '$' then
        let w := rest.takeWhile jsWord
        if w.length ≥ 1 then (c :: w) :: variableMatchesAux fuel (rest.drop w.length)
        else variableMatchesAux fuel rest
      else variableMatchesAux fuel rest

def variableMatches (text : List Char) : List (List Char) :=
  variableMatchesAux text.length text

/-- Source `ai_symbols.js` `variableRegex`
`/^\s*?(Local|Global)?\s(Const|Enum)/`: lazy whitespace, optional
qualifier, one whitespace, the kind keyword; returns the kind group. -/
def constEnumGroup (u : List Char) : Option (List Char) :=
  if litAt "Const".data u then some "Const".data
  else if litAt "Enum".data u then some "Enum".data
  else none

/-- `\s(Const|Enum)` at the head. -/
def oneWsThenKind : List Char → Option (List Char)
  | c :: u2 => if jsWs c then constEnumGroup u2 else none
  | [] => none

/-- `(Local|Global)?\s(Const|Enum)` at the head (optional group tried
greedily first). -/
def varRegexHere (u : List Char) : Option (List Char) :=
  match (if litAt "Local".data u then oneWsThenKind (u.drop 5) else none) with
  | some r => some r
  | none =>
      match (if litAt "Global".data u then oneWsThenKind (u.drop 6) else none) with
      | some r => some r
      | none => oneWsThenKind u

def matchVariableRegex : List Char → Option (List Char)
  | [] => none
  | c :: rest =>
      match varRegexHere (c :: rest) with
      | some r => some r
      | none => if jsWs c then matchVariableRegex rest else none

/-- Source `ai_symbols.js` `getVariableKind`. -/
def getVariableKind (text : List Char) (inContinuation : Bool)
    (variableKind : Option SymKind) : Option SymKind :=
  if inContinuation then variableKind
  else
    match matchVariableRegex text with
    | some k =>
        if k = "Const".data then some SymKind.constant
        else if k = "Enum".data then some SymKind.enumMember
        else some SymKind.variable
    | none => some SymKind.variable

/-- Source `ai_symbols.js` `shouldSkipVariable`. -/
def shouldSkipVariable (v : List Char) : Bool :=
  AI_CONSTANTS.contains v ||
    (match v with
      | c :: _ => c == '\'' || c == '"' || c == ';'
      | [] => false)

/-- Source `ai_symbols.js` `findContainerForVariable`: the first symbol
whose range contains the line and whose kind is Function; `{}` (whose
`.name` is `undefined`) when none. -/
def findContainerForVariable (result : List Sym)
    (lineRange : (Nat × Nat) × (Nat × Nat)) : Option Sym :=
  result.find? (fun sym =>
    rangeContains sym.range lineRange && sym.kind == some SymKind.function)

/-- Source `ai_symbols.js` `isVariableInResults`: `symbol.name ===
variable && symbol.containerName === container.name`. -/
def isVariableInResults (result : List Sym) (variable_ : List Char)
    (containerNameVal : JSStr) : Bool :=
  result.any (fun sym =>
    sym.name == variable_ && sym.containerName == containerNameVal)

/-- Source `ai_symbols.js` `createVariableSymbol` with
`parseVariablesFromText`'s argument `container: container.name`: an
`undefined` container name falls to the destructuring default `null`. -/
def createVariableSymbol (variable_ : List Char) (variableKind : Option SymKind)
    (lineRange : (Nat × Nat) × (Nat × Nat)) (containerNameVal : JSStr) : Sym :=
  { name := variable_
    kind := variableKind
    containerName :=
      match containerNameVal with
      | JSStr.undef => JSStr.jsnull
      | x => x
    range := lineRange }

/-- Source `ai_symbols.js` `parseVariablesFromText`. -/
def parseVariablesFromText (showVariables : Bool) (text : List Char)
    (lineRange : (Nat × Nat) × (Nat × Nat)) (st : SymState) : SymState :=
  if !showVariables then st
  else
    match variableMatches text with
    | [] => st
    | vars =>
        let vKind := getVariableKind text st.inContinuation st.variableKind
        let inCont := continuationTest text
        let st1 := vars.foldl
          (fun st v =>
            if shouldSkipVariable v then st
            else
              let containerNameVal :=
                match findContainerForVariable st.result lineRange with
                | some s => JSStr.str s.name
                | none => JSStr.undef
              if isVariableInResults st.result v containerNameVal then st
              else
                { st with
                  result := st.result ++
                    [createVariableSymbol v vKind lineRange containerNameVal]
                  processed := st.processed ++ [v] })
          st
        { st1 with inContinuation := inCont, variableKind := vKind }

/-- Source `util.js` `regionPattern` `/^[\t ]{0,}#region\s[- ]{0,}(.+)/i`
on one line; returns (full match, name group). -/
def matchRegionLine (text : List Char) : Option (List Char × List Char) :=
  let lead := text.takeWhile tabSp
  let s := text.drop lead.length
  if litAtCI "#region".data s then
    match s.drop 7 with
    | c :: r2 =>
        if jsWs c then
          let run := r2.takeWhile (fun c => c == '-' || c == ' ')
          let rest := r2.drop run.length
          let cap := rest.takeWhile (fun c => !(c == '\n' || c == '\r'))
          if cap.length ≥ 1 then
            some (text.take (lead.length + 7 + 1 + run.length + cap.length), cap)
          else
            -- `(.+)` backtracks one `[- ]` character when the greedy run
            -- reaches the end of the dot-line
            match run.getLast? with
            | some lc => some (text.take (lead.length + 7 + 1 + run.length), [lc])
            | none => none
        else none
    | [] => none
  else none

/-- `[- ]{0,}(NAME)` of `createRegionSymbol` with its backtracking: try
the longest `[- ]` run first, giving characters back until the literal
name matches AND an `#EndRegion` follows; returns (run length used,
offset of `#EndRegion` after the name). -/
def tryRegionRun (name r2 : List Char) : Nat → Option (Nat × Nat)
  | 0 =>
      if litAt name r2 then
        match scanFrom (fun v => if litAt "#EndRegion".data v then some () else none)
            (r2.drop name.length) 0 with
        | some (jj, _) => some (0, jj)
        | none => none
      else none
  | j + 1 =>
      (if litAt name (r2.drop (j + 1)) then
        match scanFrom (fun v => if litAt "#EndRegion".data v then some () else none)
            ((r2.drop (j + 1)).drop name.length) 0 with
        | some (jj, _) => some (j + 1, jj)
        | none => none
      else none).orElse (fun _ => tryRegionRun name r2 j)

/-- `#Region\s[- ]{0,}(NAME).*?#EndRegion` (flag `s`, case sensitive) at
the head of `cs`: total match length. -/
def matchRegionBodyAt (name : List Char) (cs : List Char) : Option Nat :=
  if litAt "#Region".data cs then
    match cs.drop 7 with
    | c :: r2 =>
        if jsWs c then
          let run := r2.takeWhile (fun c => c == '-' || c == ' ')
          match tryRegionRun name r2 run.length with
          | some (j, jj) => some (7 + 1 + j + name.length + jj + 10)
          | none => none
        else none
    | [] => none
  else none

/-- Source `ai_symbols.js` `createRegionSymbol(regionName, doc, docText)`
(the escaping of `regionName` makes it a literal in the pattern). -/
def createRegionSymbol (regionName docText : List Char) : Option Sym :=
  match scanFrom (matchRegionBodyAt regionName) docText 0 with
  | none => none
  | some (i, totalLen) =>
      some
        { name := regionName
          kind := some SymKind.namespaceK
          containerName := JSStr.str []
          range := (positionAt docText i, positionAt docText (i + totalLen)) }

/-- Source `ai_symbols.js` `parseRegionFromText` (dedup by the full
regex match `regionName[0]`). -/
def parseRegionFromText (showRegions : Bool) (docText : List Char)
    (regionName : Option (List Char × List Char)) (st : SymState) : SymState :=
  if !showRegions then st
  else
    match regionName with
    | none => st
    | some (full, g1) =>
        if st.processed.contains full then st
        else
          match createRegionSymbol g1 docText with
          | none => st
          | some sym =>
              { st with
                result := st.result ++ [sym]
                processed := st.processed ++ [full] }

/-- One iteration of the line loop of `provideDocumentSymbols`. -/
def processLine (showVariables showRegions : Bool) (docText : List Char)
    (lines : List (List Char)) (st : SymState) (lineNum : Nat) : SymState :=
  let text := (lines.get? lineNum).getD []
  let lineRange := ((lineNum, 0), (lineNum, text.length))
  let regionName := matchRegionLine text
  let st1 :=
    if !isSkippableLine text || regionName.isSome then
      if !st.inComment then
        parseRegionFromText showRegions docText regionName
          (parseVariablesFromText showVariables text lineRange
            (parseFunctionFromText docText lines lineNum st))
      else st
    else st
  let st2 := if commentEndTest text then { st1 with inComment := false } else st1
  if commentStartTest text then { st2 with inComment := true } else st2

/-- Source `ai_symbols.js` `provideDocumentSymbols(doc)` for LF-separated
document text, with the two configuration toggles passed in
(`showVariablesInGoToSymbol`, `showRegionsInGoToSymbol`). -/
def provideDocumentSymbols (showVariables showRegions : Bool)
    (docText : List Char) : List Sym :=
  let lines := splitOnChar '\n' docText
  let lineCount := min lines.length 10000
  ((List.range lineCount).foldl (processLine showVariables showRegions docText lines)
    { result := []
      processed := []
      inComment := false
      inContinuation := false
      variableKind := none }).result

theorem optOr_none_right (a : Option V) : optOr a none = a := by
  cases a <;> rfl

theorem optOr_assoc (a b c : Option V) :
    optOr (optOr a b) c = optOr a (optOr b c) := by
  cases a <;> rfl

theorem jsGet_append (x y : List (List Char × V)) (k : List Char) :
    jsGet (x ++ y) k = optOr (jsGet x k) (jsGet y k) := by
  induction x with
  | nil => simp [jsGet, optOr]
  | cons e t ih =>
      by_cases h : (e.1 == k) = true
      · simp [jsGet, h, optOr]
      · simp only [List.cons_append, jsGet, h, Bool.false_eq_true, if_false]
        exact ih

theorem jsGetLast_cons (k0 : List Char) (v0 : V)
    (bs : List (List Char × V)) (k : List Char) :
    jsGetLast ((k0, v0) :: bs) k =
      optOr (jsGetLast bs k) (if (k0 == k) = true then some v0 else none) := by
  unfold jsGetLast
  rw [List.reverse_cons, jsGet_append]
  congr 1

theorem jsGet_jsAssign (b a : List (List Char × V)) (k : List Char) :
    jsGet (jsAssign a b) k = optOr (jsGetLast b k) (jsGet a k) := by
  induction b generalizing a with
  | nil => simp [jsAssign, jsGetLast, jsGet, optOr]
  | cons e bs ih =>
      obtain ⟨k0, v0⟩ := e
      show jsGet (jsAssign (jsSet a k0 v0) bs) k = _
      rw [ih (jsSet a k0 v0), jsGetLast_cons, optOr_assoc]
      congr 1
      by_cases hk : k = k0
      · subst hk
        rw [jsGet_jsSet_self]
        simp [optOr]
      · rw [jsGet_jsSet_other a k0 k v0 hk]
        have : (k0 == k) = false := by
          simp only [beq_eq_false_iff_ne]
          exact fun he => hk he.symm
        simp [this, optOr]

theorem arraysMatch_nil_left (cur : List (List Char)) :
    arraysMatch ([] : List (List Char)) cur = false := by
  simp [arraysMatch]

theorem jsAssign_nil_right (a : List (List Char × V)) : jsAssign a [] = a := rfl

theorem getIncludeScripts_succ (fs : FS) (ips : List (List Char))
    (doc : List Char) (fuel : Nat) (docText : List Char) (acc : List (List Char)) :
    getIncludeScripts fs ips doc (fuel + 1) docText acc =
      walkFold (getIncludeScripts fs ips doc fuel) (resolveLib fs ips) fs
        (walkFold (getIncludeScripts fs ips doc fuel) (resolveRel fs ips doc) fs acc
          (relIncludeCaptures docText))
        (libIncludeCaptures docText) := rfl

theorem getIncludeScripts_append (fs : FS) (ips : List (List Char)) (doc : List Char) :
    ∀ (fuel : Nat) (docText : List Char) (acc : List (List Char)),
      ∃ new, getIncludeScripts fs ips doc fuel docText acc = acc ++ new ∧
        ∀ p ∈ new, p ∈ fs.paths := by
  intro fuel
  induction fuel with
  | zero => intro t acc; exact ⟨[], by simp [getIncludeScripts], by simp⟩
  | succ m ih =>
      intro t acc
      rw [getIncludeScripts_succ]
      rcases walkFold_append fs (resolveRel fs ips doc) _
          (fun _ _ h => resolveRel_mem h) ih (relIncludeCaptures t) acc with ⟨n1, h1, hp1⟩
      rcases walkFold_append fs (resolveLib fs ips) _
          (fun _ _ h => resolveLib_mem h) ih (libIncludeCaptures t) (acc ++ n1) with
        ⟨n2, h2, hp2⟩
      refine ⟨n1 ++ n2, ?_, ?_⟩
      · rw [h1, h2, List.append_assoc]
      · intro p hp
        rcases List.mem_append.mp hp with hp | hp
        · exact hp1 p hp
        · exact hp2 p hp

theorem getIncludeScripts_nodup (fs : FS) (ips : List (List Char)) (doc : List Char) :
    ∀ (fuel : Nat) (docText : List Char) (acc : List (List Char)),
      acc.Nodup → (getIncludeScripts fs ips doc fuel docText acc).Nodup := by
  intro fuel
  induction fuel with
  | zero => intro t acc h; simpa [getIncludeScripts] using h
  | succ m ih =>
      intro t acc h
      rw [getIncludeScripts_succ]
      exact walkFold_nodup fs (resolveLib fs ips) _ ih _ _
        (walkFold_nodup fs (resolveRel fs ips doc) _ ih _ _ h)

theorem includeMeasure_mono (fs : FS) (acc new : List (List Char)) :
    includeMeasure fs (acc ++ new) ≤ includeMeasure fs acc := by
  unfold includeMeasure
  apply Finset.card_le_card
  apply Finset.sdiff_subset_sdiff (Finset.Subset.refl _)
  intro a ha
  rw [List.mem_toFinset] at *
  exact List.mem_append_left _ ha

theorem includeMeasure_lt (fs : FS) {p : List Char} {acc : List (List Char)}
    (hp : p ∈ fs.paths) (hnp : p ∉ acc) :
    includeMeasure fs (acc ++ [p]) < includeMeasure fs acc := by
  unfold includeMeasure
  apply Finset.card_lt_card
  have hsub : fs.paths.toFinset \ (acc ++ [p]).toFinset ⊆
      fs.paths.toFinset \ acc.toFinset := by
    apply Finset.sdiff_subset_sdiff (Finset.Subset.refl _)
    intro a ha
    rw [List.mem_toFinset] at *
    exact List.mem_append_left _ ha
  rw [Finset.ssubset_iff_of_subset hsub]
  refine ⟨p, ?_, ?_⟩
  · rw [Finset.mem_sdiff, List.mem_toFinset, List.mem_toFinset]
    exact ⟨hp, hnp⟩
  · rw [Finset.mem_sdiff, List.mem_toFinset, List.mem_toFinset]
    intro hcon
    exact hcon.2 (List.mem_append_right _ (List.mem_singleton_self p))

theorem includeMeasure_zero_mem (fs : FS) {acc : List (List Char)}
    (h : includeMeasure fs acc = 0) {p : List Char} (hp : p ∈ fs.paths) :
    p ∈ acc := by
  unfold includeMeasure at h
  rw [Finset.card_eq_zero] at h
  have hnot := Finset.eq_empty_iff_forall_not_mem.mp h p
  rw [Finset.mem_sdiff, List.mem_toFinset, List.mem_toFinset] at hnot
  by_contra hcon
  exact hnot ⟨hp, hcon⟩

theorem walkFold_of_all_visited (fs : FS) (resolve : List Char → Option (List Char))
    (walkNext : List Char → List (List Char) → List (List Char))
    (hres : ∀ x f, resolve x = some f → f ∈ fs.paths) :
    ∀ (items : List (List Char)) (acc : List (List Char)),
      (∀ p ∈ fs.paths, p ∈ acc) → walkFold walkNext resolve fs acc items = acc := by
  intro items
  induction items with
  | nil => intro acc _; rfl
  | cons x xs ih =>
      intro acc hall
      simp only [walkFold, List.foldl_cons] at *
      cases hr : resolve x with
      | none =>
          rw [walkStep_of_none walkNext fs acc hr]
          exact ih acc hall
      | some f =>
          have hc : acc.contains f = true :=
            (listContains_iff acc f).mpr (hall f (hres x f hr))
          rw [walkStep_of_visited walkNext fs acc hr hc]
          exact ih acc hall

theorem walkFold_congr (fs : FS) (resolve : List Char → Option (List Char))
    (wn1 wn2 : List Char → List (List Char) → List (List Char)) (m : Nat)
    (hres : ∀ x f, resolve x = some f → f ∈ fs.paths)
    (hwn1 : ∀ text acc, ∃ new, wn1 text acc = acc ++ new ∧ ∀ p ∈ new, p ∈ fs.paths)
    (heq : ∀ text acc, includeMeasure fs acc ≤ m → wn1 text acc = wn2 text acc) :
    ∀ (items : List (List Char)) (acc : List (List Char)),
      includeMeasure fs acc ≤ m + 1 →
      walkFold wn1 resolve fs acc items = walkFold wn2 resolve fs acc items := by
  intro items
  induction items with
  | nil => intro acc _; rfl
  | cons x xs ih =>
      intro acc hm
      simp only [walkFold, List.foldl_cons] at *
      cases hr : resolve x with
      | none =>
          rw [walkStep_of_none wn1 fs acc hr, walkStep_of_none wn2 fs acc hr]
          exact ih acc hm
      | some f =>
          by_cases hc : acc.contains f = true
          · rw [walkStep_of_visited wn1 fs acc hr hc,
              walkStep_of_visited wn2 fs acc hr hc]
            exact ih acc hm
          · rw [walkStep_of_new wn1 fs acc hr hc, walkStep_of_new wn2 fs acc hr hc]
            have hfp := hres x f hr
            have hfn : f ∉ acc := fun hmem => hc ((listContains_iff acc f).mpr hmem)
            have hlt := includeMeasure_lt fs hfp hfn
            have hle : includeMeasure fs (acc ++ [f]) ≤ m := by omega
            rw [heq ((fs.readText f).getD []) (acc ++ [f]) hle]
            rcases hwn1 ((fs.readText f).getD []) (acc ++ [f]) with ⟨nn, hne, _⟩
            have hacc2 : wn2 ((fs.readText f).getD []) (acc ++ [f]) =
                (acc ++ [f]) ++ nn := by
              rw [← heq ((fs.readText f).getD []) (acc ++ [f]) hle]
              exact hne
            have hm2 : includeMeasure fs
                (wn2 ((fs.readText f).getD []) (acc ++ [f])) ≤ m + 1 := by
              rw [hacc2]
              calc includeMeasure fs ((acc ++ [f]) ++ nn)
                  ≤ includeMeasure fs (acc ++ [f]) := includeMeasure_mono fs _ nn
                _ ≤ m := hle
                _ ≤ m + 1 := Nat.le_succ m
            exact ih _ hm2

theorem getIncludeScripts_fuel_adequate (fs : FS) (ips : List (List Char))
    (doc : List Char) :
    ∀ (fuel : Nat) (docText : List Char) (acc : List (List Char)),
      includeMeasure fs acc ≤ fuel →
      getIncludeScripts fs ips doc (fuel + 1) docText acc =
        getIncludeScripts fs ips doc fuel docText acc := by
  intro fuel
  induction fuel with
  | zero =>
      intro t acc h
      have hall : ∀ p ∈ fs.paths, p ∈ acc := fun p hp =>
        includeMeasure_zero_mem fs (Nat.le_zero.mp h) hp
      rw [getIncludeScripts_succ]
      rw [walkFold_of_all_visited fs (resolveRel fs ips doc) _
        (fun _ _ hh => resolveRel_mem hh) _ acc hall]
      rw [walkFold_of_all_visited fs (resolveLib fs ips) _
        (fun _ _ hh => resolveLib_mem hh) _ acc hall]
      rfl
  | succ m ih =>
      intro t acc h
      rw [getIncludeScripts_succ, getIncludeScripts_succ]
      have hres1 : ∀ x f, resolveRel fs ips doc x = some f → f ∈ fs.paths :=
        fun _ _ hh => resolveRel_mem hh
      have hcongr1 := walkFold_congr fs (resolveRel fs ips doc)
        (getIncludeScripts fs ips doc (m + 1)) (getIncludeScripts fs ips doc m) m
        hres1 (getIncludeScripts_append fs ips doc (m + 1)) ih
        (relIncludeCaptures t) acc h
      rw [hcongr1]
      rcases walkFold_append fs (resolveRel fs ips doc) _ hres1
          (getIncludeScripts_append fs ips doc m) (relIncludeCaptures t) acc with
        ⟨n1, he1, _⟩
      have hm1 : includeMeasure fs
          (walkFold (getIncludeScripts fs ips doc m) (resolveRel fs ips doc) fs acc
            (relIncludeCaptures t)) ≤ m + 1 := by
        rw [he1]
        exact le_trans (includeMeasure_mono fs acc n1) h
      exact walkFold_congr fs (resolveLib fs ips)
        (getIncludeScripts fs ips doc (m + 1)) (getIncludeScripts fs ips doc m) m
        (fun _ _ hh => resolveLib_mem hh)
        (getIncludeScripts_append fs ips doc (m + 1)) ih
        (libIncludeCaptures t) _ hm1

theorem getParams_foldl_preserves (text : List Char) (hIdx : Option Nat) :
    ∀ (l : List (List Char)) (acc : List (List Char × ParamInfo)) (k : List Char),
      (jsGet acc k).isSome = true →
      (jsGet (l.foldl (getParamsStep text hIdx) acc) k).isSome = true := by
  intro l
  induction l with
  | nil => intro acc k h; exact h
  | cons q t ih =>
      intro acc k h
      exact ih _ k (jsGet_jsSet_isSome _ _ _ _ h)

theorem getParams_foldl_mem (text : List Char) (hIdx : Option Nat) :
    ∀ (l : List (List Char)) (acc : List (List Char × ParamInfo)) (p : List Char),
      p ∈ l →
      (jsGet (l.foldl (getParamsStep text hIdx) acc) (paramEntryName p)).isSome = true := by
  intro l
  induction l with
  | nil => intro acc p h; cases h
  | cons q t ih =>
      intro acc p h
      rcases List.mem_cons.mp h with h | h
      · subst h
        rw [List.foldl_cons]
        apply getParams_foldl_preserves text hIdx t (getParamsStep text hIdx acc p)
        simp [getParamsStep, jsGet_jsSet_self]
      · exact ih _ p h

theorem jsIndexOf_nonneg_of_mem [BEq A] [LawfulBEq A] {arr : List A} {v : A} (h : v ∈ arr) :
    0 ≤ jsIndexOf arr v := by
  induction arr with
  | nil => cases h
  | cons x t ih =>
      by_cases hx : (x == v) = true
      · simp [jsIndexOf, hx]
      · rcases List.mem_cons.mp h with h' | h'
        · exact absurd (by simp [h']) hx
        · have h0 := ih h'
          have hne : (jsIndexOf t v == -1) = false := by
            rw [beq_eq_false_iff_ne]
            intro he; rw [he] at h0; omega
          simp only [jsIndexOf, Bool.not_eq_true] at hx ⊢
          rw [if_neg (by simp [hx]), if_neg (by simp_all)]
          omega

theorem jsIndexOf_neg_of_not_mem [BEq A] [LawfulBEq A] {arr : List A} {v : A} (h : v ∉ arr) :
    jsIndexOf arr v = -1 := by
  induction arr with
  | nil => rfl
  | cons x t ih =>
      simp only [List.mem_cons, not_or] at h
      have hx : (x == v) = false := by
        simp [beq_iff_eq]
        intro he; exact h.1 he.symm
      simp [jsIndexOf, hx, ih h.2]

theorem jsIndexOf_cons_self [BEq A] [LawfulBEq A] (v : A) (t : List A) :
    jsIndexOf (v :: t) v = 0 := by
  simp [jsIndexOf]

theorem jsIndexOf_pos_iff [BEq A] [LawfulBEq A] {arr : List A} {v : A} :
    jsIndexOf arr v ≤ 0 ↔ v ∉ arr ∨ arr.head? = some v := by
  constructor
  · intro h
    cases arr with
    | nil => exact Or.inl (by simp)
    | cons x t =>
        by_cases hx : x = v
        · exact Or.inr (by simp [hx])
        · left
          intro hmem
          rcases List.mem_cons.mp hmem with h' | h'
          · exact hx h'.symm
          · have h0 := jsIndexOf_nonneg_of_mem h'
            have hxb : (x == v) = false := by simp [beq_iff_eq, hx]
            have hne : (jsIndexOf t v == -1) = false := by
              rw [beq_eq_false_iff_ne]
              intro he; rw [he] at h0; omega
            simp only [jsIndexOf, hxb, Bool.false_eq_true, if_false, hne] at h
            omega
  · intro h
    rcases h with h | h
    · rw [jsIndexOf_neg_of_not_mem h]; omega
    · cases arr with
      | nil => simp at h
      | cons x t =>
          simp only [List.head?_cons, Option.some.injEq] at h
          subst h
          rw [jsIndexOf_cons_self]

end AutoItVSC

/-- C7 (failing input): on the two-line document `$x = 1` / `$x = 2`
with variable symbols enabled, one extraction pass emits TWO variable
symbols with the identical (name, containerName) pair `($x, null)` —
the dedup in `isVariableInResults` compares the stored containerName
(`null`, from the `createVariableSymbol` destructuring default) against
`container.name` (`undefined`, from the `{}` fallback of
`findContainerForVariable`) with `===`, which never holds for top-level
variables.  Inside functions the claim's behaviour does hold: the second
conjunct shows container attribution and per-container distinctness on
two functions each declaring `$a`. -/
theorem claim_C7_variable_dedup_bug :
    (AutoItVSC.provideDocumentSymbols true true "$x = 1\n$x = 2".data).map
        (fun s => (s.name, s.containerName)) =
      [("$x".data, AutoItVSC.JSStr.jsnull), ("$x".data, AutoItVSC.JSStr.jsnull)] ∧
    (AutoItVSC.provideDocumentSymbols true true
        "Func Foo()\nLocal $a = 1\nEndFunc\nFunc Bar()\nLocal $a = 2\nEndFunc".data).map
        (fun s => (s.name, s.containerName)) =
      [("Foo".data, AutoItVSC.JSStr.str []),
       ("$a".data, AutoItVSC.JSStr.str "Foo".data),
       ("Bar".data, AutoItVSC.JSStr.str []),
       ("$a".data, AutoItVSC.JSStr.str "Bar".data)] := by
  refine ⟨by decide, by decide⟩

/-- C8: the Lexical Line Classifier `isSkippableLine` returns true for every
line that is empty or whitespace-only, and for every line whose first
non-whitespace character is `;`; for lines whose first non-whitespace
character is `#` it returns true except when the line opens or closes a
block-comment region (`#cs`, `#ce`, `#comments-start`, `#comments-end`),
for which it returns false; all other lines are not skippable. -/
theorem claim_C8_isSkippableLine (text : List Char) :
    AutoItVSC.isSkippableLine text = true ↔
      AutoItVSC.jsWsOnly text = true ∨
      text.find? (fun c => !AutoItVSC.jsWs c) = some ';' ∨
      (text.find? (fun c => !AutoItVSC.jsWs c) = some '#' ∧
        AutoItVSC.blockCommentMarkerTest text = false) := by
  have hfind := AutoItVSC.charAt_firstNonWsIdx text
  by_cases hw : AutoItVSC.jsWsOnly text = true
  · simp [AutoItVSC.isSkippableLine, hw]
  · simp only [AutoItVSC.isSkippableLine, hw, Bool.false_eq_true, if_false, hfind]
    by_cases h1 : text.find? (fun c => !AutoItVSC.jsWs c) = some ';'
    · simp [h1, hw]
    · by_cases h2 : text.find? (fun c => !AutoItVSC.jsWs c) = some '#'
      · by_cases hb : AutoItVSC.blockCommentMarkerTest text = true
        · simp [h1, h2, hb, hw]
        · simp [h1, h2, hb, hw]
      · simp [h1, h2, hw]

/-- C2 counterexample: the claim's characterisation of `arraysMatch`
fails on the code.  `arraysMatch ["a"] ["b"]` is `true` although `"a"`
does not occur in `["b"]` (JS `indexOf` returns `-1 ≤ 0` for a missing
element), and `arraysMatch [] []` is `false` although `[]` is a
permutation of itself. -/
theorem claim_C2_counterexample :
    (AutoItVSC.arraysMatch ["a"] ["b"] = true ∧ ("a" ∈ (["b"] : List String) → False)) ∧
    (AutoItVSC.arraysMatch ([] : List String) [] = false ∧
      List.Perm ([] : List String) []) :=
  ⟨⟨by decide, by decide⟩, ⟨by decide, List.Perm.refl _⟩⟩

/-- C2 (amended): `arraysMatch arr1 arr2` is true exactly when the two
lists have equal length and some element of `arr1` is either absent from
`arr2` or is the first element of `arr2`; consequently, for every
NONEMPTY list `l` and every permutation `l'` of `l`, `arraysMatch l l'`
is true (so reordering a nonempty set of `#include` directives does not
trigger an include-cache rebuild), while `arraysMatch [] [] = false`. -/
theorem claim_C2_arraysMatch_amended :
    (∀ arr1 arr2 : List String,
        AutoItVSC.arraysMatch arr1 arr2 = true ↔
          arr1.length = arr2.length ∧
            ∃ v ∈ arr1, v ∉ arr2 ∨ arr2.head? = some v) ∧
    (∀ l l' : List String, l ≠ [] → l.Perm l' → AutoItVSC.arraysMatch l l' = true) := by
  have hmain : ∀ arr1 arr2 : List String,
      AutoItVSC.arraysMatch arr1 arr2 = true ↔
        arr1.length = arr2.length ∧
          ∃ v ∈ arr1, v ∉ arr2 ∨ arr2.head? = some v := by
    intro arr1 arr2
    unfold AutoItVSC.arraysMatch
    rw [Bool.and_eq_true, beq_iff_eq, List.any_eq_true]
    constructor
    · rintro ⟨hlen, v, hv, hcond⟩
      exact ⟨hlen, v, hv, AutoItVSC.jsIndexOf_pos_iff.mp (of_decide_eq_true hcond)⟩
    · rintro ⟨hlen, v, hv, hcond⟩
      exact ⟨hlen, v, hv, decide_eq_true (AutoItVSC.jsIndexOf_pos_iff.mpr hcond)⟩
  refine ⟨hmain, ?_⟩
  intro l l' hne hperm
  cases l' with
  | nil => exact absurd hperm.eq_nil hne
  | cons h t =>
      refine (hmain l (h :: t)).mpr ⟨hperm.length_eq, h, ?_, Or.inr rfl⟩
      exact hperm.mem_iff.mpr (List.mem_cons_self h t)

/-- Witness for the amended C2 at a concrete permutation pair. -/
theorem claim_C2_arraysMatch_amended_witness :
    AutoItVSC.arraysMatch ["a", "b"] ["b", "a"] = true :=
  claim_C2_arraysMatch_amended.2 ["a", "b"] ["b", "a"] (by decide) (by decide)

/-- C5: for a document whose text has zero `#include` directives
(quoted or library form), `getIncludes` returns an empty table whatever
the cached state, so the merged table `{...defaultSigs, ...includes,
...locals}` equals exactly the overlay of the built-ins by the local
signatures; and in general lookup in the merged table is an overlay in
which a local definition shadows an included one, which shadows a
built-in of the same name. -/
theorem claim_C5_merged_signature_table :
    (∀ (fs : AutoItVSC.FS) (ips udfs : List (List Char))
        (docFileName text : List Char) (cur : List (List Char))
        (inc0 : List (List Char × AutoItVSC.FunctionSignature))
        (d : List (List Char × AutoItVSC.FunctionSignature)),
      AutoItVSC.includePatternCaptures text = [] →
      AutoItVSC.libraryIncludePatternCaptures text = [] →
      (AutoItVSC.getIncludes fs ips udfs docFileName text cur inc0).1 = [] ∧
      AutoItVSC.allSignatures d
          (AutoItVSC.getIncludes fs ips udfs docFileName text cur inc0).1
          (AutoItVSC.getLocalSigs text docFileName)
        = AutoItVSC.jsAssign (AutoItVSC.jsAssign [] d)
            (AutoItVSC.getLocalSigs text docFileName)) ∧
    (∀ (d i l : List (List Char × AutoItVSC.FunctionSignature)) (k : List Char),
      AutoItVSC.jsGet (AutoItVSC.allSignatures d i l) k =
        AutoItVSC.optOr (AutoItVSC.jsGetLast l k)
          (AutoItVSC.optOr (AutoItVSC.jsGetLast i k) (AutoItVSC.jsGetLast d k))) := by
  constructor
  · intro fs ips udfs docFileName text cur inc0 d h1 h2
    have hget : (AutoItVSC.getIncludes fs ips udfs docFileName text cur inc0).1 = [] := by
      unfold AutoItVSC.getIncludes
      rw [h1, h2]
      simp [AutoItVSC.arraysMatch_nil_left]
    refine ⟨hget, ?_⟩
    rw [hget]
    unfold AutoItVSC.allSignatures
    rw [AutoItVSC.jsAssign_nil_right]
  · intro d i l k
    unfold AutoItVSC.allSignatures
    rw [AutoItVSC.jsGet_jsAssign, AutoItVSC.jsGet_jsAssign, AutoItVSC.jsGet_jsAssign]
    have : AutoItVSC.jsGet ([] : List (List Char × AutoItVSC.FunctionSignature)) k
        = none := rfl
    rw [this, AutoItVSC.optOr_none_right]

/-- Witness for C5's zero-include part with a concrete one-function
document and a one-entry built-in table. -/
theorem claim_C5_merged_signature_table_witness :
    (AutoItVSC.getIncludes ⟨[]⟩ [] [] "C:\\p\\M.au3".data "Func Add()".data
        ["Old.au3".data] []).1 = [] ∧
    AutoItVSC.allSignatures
        [("MsgBox".data, AutoItVSC.FunctionSignature.mk "MsgBox(...)".data [] [])]
        (AutoItVSC.getIncludes ⟨[]⟩ [] [] "C:\\p\\M.au3".data "Func Add()".data
          ["Old.au3".data] []).1
        (AutoItVSC.getLocalSigs "Func Add()".data "C:\\p\\M.au3".data)
      = AutoItVSC.jsAssign
          (AutoItVSC.jsAssign []
            [("MsgBox".data, AutoItVSC.FunctionSignature.mk "MsgBox(...)".data [] [])])
          (AutoItVSC.getLocalSigs "Func Add()".data "C:\\p\\M.au3".data) :=
  claim_C5_merged_signature_table.1 ⟨[]⟩ [] [] "C:\\p\\M.au3".data
    "Func Add()".data ["Old.au3".data] []
    [("MsgBox".data, AutoItVSC.FunctionSignature.mk "MsgBox(...)".data [] [])]
    (by decide) (by decide)

/-- C6: for the declaration `Func Add(ByRef $x, $y = 5)` the parameter
table built by `getParams` is keyed `$x` and `$y` — the `ByRef` qualifier
and the default-value assignment are stripped from the stored names — and
in general every comma-separated entry of a parameter list is stored under
its name after those two strips (restricted to the inputs on which the JS
code does not throw: either no header, or no empty entry name, since an
empty name would make the interpolated parameter-documentation regex a
JS `SyntaxError`). -/
theorem claim_C6_getParams :
    AutoItVSC.jsKeys
        (AutoItVSC.getParams "ByRef $x, $y = 5".data
          "Func Add(ByRef $x, $y = 5)".data none) = ["$x".data, "$y".data] ∧
    ∀ (paramText text : List Char) (hIdx : Option Nat),
      paramText ≠ [] →
      (hIdx = none ∨
        ∀ p ∈ AutoItVSC.splitOnChar ',' paramText, AutoItVSC.paramEntryName p ≠ []) →
      ∀ p ∈ AutoItVSC.splitOnChar ',' paramText,
        (AutoItVSC.jsGet (AutoItVSC.getParams paramText text hIdx)
          (AutoItVSC.paramEntryName p)).isSome = true := by
  refine ⟨by decide, ?_⟩
  intro paramText text hIdx hne _ p hp
  have hempty : paramText.isEmpty = false := by
    cases paramText with
    | nil => exact absurd rfl hne
    | cons c t => rfl
  unfold AutoItVSC.getParams
  rw [hempty]
  simp only [Bool.false_eq_true, if_false]
  exact AutoItVSC.getParams_foldl_mem text hIdx _ [] p hp

/-- C10: every signature built by `buildFunctionSignature` has
documentation ending in `Included from <fileName>`; when no structured
header comment is found the documentation is exactly that fallback, and
when one is found its one-line description (plus `\r`) is prepended with
the suffix still present. -/
theorem claim_C10_buildFunctionSignature :
    (∀ lbl name params text file : List Char,
        ∃ p, (AutoItVSC.buildFunctionSignature lbl name params text
            file).functionObject.documentation =
          p ++ ("Included from ".data ++ file)) ∧
    (∀ lbl name params text file : List Char,
        AutoItVSC.findHeader name text = none →
        (AutoItVSC.buildFunctionSignature lbl name params text
            file).functionObject.documentation =
          "Included from ".data ++ file) ∧
    (∀ (lbl name params text file : List Char) (i : Nat) (d : List Char),
        AutoItVSC.findHeader name text = some (i, d) →
        (AutoItVSC.buildFunctionSignature lbl name params text
            file).functionObject.documentation =
          (d ++ ['\r']) ++ ("Included from ".data ++ file)) := by
  refine ⟨?_, ?_, ?_⟩
  · intro lbl name params text file
    unfold AutoItVSC.buildFunctionSignature
    cases h : AutoItVSC.findHeader name text with
    | none => exact ⟨[], by simp [h]⟩
    | some hm => exact ⟨hm.2 ++ ['\r'], by simp [h]⟩
  · intro lbl name params text file h
    unfold AutoItVSC.buildFunctionSignature
    simp [h]
  · intro lbl name params text file i d h
    unfold AutoItVSC.buildFunctionSignature
    simp [h]

/-- Witness for C10 at concrete inputs, one without a header comment and
one with a recognised `Name`/`Description` header. -/
theorem claim_C10_buildFunctionSignature_witness :
    (AutoItVSC.buildFunctionSignature "Add()".data "Add".data [] "Func Add()".data
        "F.au3".data).functionObject.documentation =
      "Included from ".data ++ "F.au3".data ∧
    (AutoItVSC.buildFunctionSignature "Add()".data "Add".data []
        "; Name...: Add\n; Description ...: Adds numbers\nFunc Add()".data
        "F.au3".data).functionObject.documentation =
      ("Adds numbers".data ++ ['\r']) ++ ("Included from ".data ++ "F.au3".data) :=
  ⟨claim_C10_buildFunctionSignature.2.1 "Add()".data "Add".data [] "Func Add()".data
      "F.au3".data (by decide),
   claim_C10_buildFunctionSignature.2.2 "Add()".data "Add".data []
      "; Name...: Add\n; Description ...: Adds numbers\nFunc Add()".data
      "F.au3".data 0 "Adds numbers".data (by decide)⟩

/-- C4: for a nonempty ordered search-path list, `findFilepath` probes
`directory + fileSpec` in the effective order and returns the first
candidate existing on disk (`none` models the JS return value `false`
when no candidate exists); with the library-first flag false the first
directory is moved to the end of the order for that lookup only (the
function is pure and returns a fresh result, leaving the configured list
unchanged). -/
theorem claim_C4_findFilepath (fs : AutoItVSC.FS) (h : List Char)
    (t : List (List Char)) (file : List Char) (library : Bool) :
    AutoItVSC.findFilepath fs (h :: t) file library =
      ((if library then h :: t else t ++ [h]).map
          (fun d => AutoItVSC.normJoin d file)).find? fs.existsSync := by
  cases library with
  | false =>
      simp only [AutoItVSC.findFilepath, AutoItVSC.moveHeadToEnd, if_false,
        Bool.false_eq_true]
      exact AutoItVSC.probePaths_eq_find fs file (t ++ [h])
  | true =>
      simp only [AutoItVSC.findFilepath, if_true]
      exact AutoItVSC.probePaths_eq_find fs file (h :: t)

/-- C1: the Call-Context Resolver on the text left of the cursor meets
the spec's three vectors: `Outer(Inner(1,2), ` yields function `Outer`
at argument index 1 (the closed inner call is erased first); `Func(`
yields `Func` at index 0; and in `Func("a,b", ` the comma inside the
quoted string is not counted, giving index 1. -/
theorem claim_C1_call_context_vectors :
    AutoItVSC.getCallInfo "Outer(Inner(1,2), ".data = (some "Outer".data, 1) ∧
    AutoItVSC.getCallInfo "Func(".data = (some "Func".data, 0) ∧
    AutoItVSC.getCallInfo "Func(\"a,b\", ".data = (some "Func".data, 1) := by
  refine ⟨by decide, by decide, by decide⟩

/-- C3: include-graph walking terminates on every finite include graph,
cyclic ones included.  Part 1: the visited list never acquires duplicates
(each resolved path occurs at most once, in discovery order).  Part 2:
recursion depth is bounded by the number of distinct on-disk files not
yet visited — the spec's "bounds recursion to the number of distinct
files in the graph": any fuel of at least `includeMeasure` computes the
recursion's fixed result, so the unbounded JS recursion terminates.
Part 3: on the concrete cycle `A` includes `B`, `B` includes `A`, the
walk from `A`'s text visits each of `B`, `A` exactly once and stops. -/
theorem claim_C3_getIncludeScripts :
    (∀ (fs : AutoItVSC.FS) (ips : List (List Char)) (doc : List Char)
        (fuel : Nat) (docText : List Char) (acc : List (List Char)),
      acc.Nodup → (AutoItVSC.getIncludeScripts fs ips doc fuel docText acc).Nodup) ∧
    (∀ (fs : AutoItVSC.FS) (ips : List (List Char)) (doc : List Char)
        (fuel : Nat) (docText : List Char) (acc : List (List Char)),
      AutoItVSC.includeMeasure fs acc ≤ fuel →
      AutoItVSC.getIncludeScripts fs ips doc (fuel + 1) docText acc =
        AutoItVSC.getIncludeScripts fs ips doc fuel docText acc) ∧
    AutoItVSC.getIncludeScripts
        ⟨[("C:\\p\\B.au3".data, "#include \"A.au3\"".data),
          ("C:\\p\\A.au3".data, "#include \"B.au3\"".data)]⟩
        ["C:\\lib".data] "C:\\p\\A.au3".data 5 "#include \"B.au3\"".data []
      = ["C:\\p\\B.au3".data, "C:\\p\\A.au3".data] :=
  ⟨AutoItVSC.getIncludeScripts_nodup,
   AutoItVSC.getIncludeScripts_fuel_adequate,
   by decide⟩

/-- Witness for C3's two quantified parts on the concrete cyclic
filesystem with empty initial visited list. -/
theorem claim_C3_getIncludeScripts_witness :
    (AutoItVSC.getIncludeScripts
        ⟨[("C:\\p\\B.au3".data, "#include \"A.au3\"".data),
          ("C:\\p\\A.au3".data, "#include \"B.au3\"".data)]⟩
        ["C:\\lib".data] "C:\\p\\A.au3".data 5 "#include \"B.au3\"".data []).Nodup ∧
    AutoItVSC.getIncludeScripts
        ⟨[("C:\\p\\B.au3".data, "#include \"A.au3\"".data),
          ("C:\\p\\A.au3".data, "#include \"B.au3\"".data)]⟩
        ["C:\\lib".data] "C:\\p\\A.au3".data (2 + 1) "#include \"B.au3\"".data []
      = AutoItVSC.getIncludeScripts
        ⟨[("C:\\p\\B.au3".data, "#include \"A.au3\"".data),
          ("C:\\p\\A.au3".data, "#include \"B.au3\"".data)]⟩
        ["C:\\lib".data] "C:\\p\\A.au3".data 2 "#include \"B.au3\"".data [] :=
  ⟨claim_C3_getIncludeScripts.1 _ _ _ 5 _ [] List.nodup_nil,
   claim_C3_getIncludeScripts.2.1 _ _ _ 2 _ [] (by decide)⟩

/-- C9: a relative `#include "..."` directive found inside an included
file is resolved against the directory of the ORIGINAL open document
(the walker passes the same document into every recursive call and
`getIncludePath` joins against its directory).  Concretely: the open
document `C:\p\Main.au3` pulls in the library file `C:\lib\B.au3`, whose
text contains `#include "C.au3"`; although `C.au3` exists both next to
`B.au3` (`C:\lib\C.au3`) and next to the document (`C:\p\C.au3`), the
walk resolves it to the document-relative `C:\p\C.au3`. -/
theorem claim_C9_relative_include_resolution :
    AutoItVSC.getIncludeScripts
        ⟨[("C:\\lib\\B.au3".data, "#include \"C.au3\"".data),
          ("C:\\p\\C.au3".data, []),
          ("C:\\lib\\C.au3".data, [])]⟩
        ["C:\\lib".data] "C:\\p\\Main.au3".data 5 "#include <B.au3>".data []
      = ["C:\\lib\\B.au3".data, "C:\\p\\C.au3".data] ∧
    "C:\\lib\\C.au3".data ∉ AutoItVSC.getIncludeScripts
        ⟨[("C:\\lib\\B.au3".data, "#include \"C.au3\"".data),
          ("C:\\p\\C.au3".data, []),
          ("C:\\lib\\C.au3".data, [])]⟩
        ["C:\\lib".data] "C:\\p\\Main.au3".data 5 "#include <B.au3>".data [] := by
  refine ⟨by decide, ?_⟩
  intro hmem
  revert hmem
  decide

/-- Witness for C6's general part at the concrete declaration. -/
theorem claim_C6_getParams_witness :
    (AutoItVSC.jsGet
      (AutoItVSC.getParams "ByRef $x, $y = 5".data
        "Func Add(ByRef $x, $y = 5)".data none)
      (AutoItVSC.paramEntryName " $y = 5".data)).isSome = true :=
  claim_C6_getParams.2 "ByRef $x, $y = 5".data
    "Func Add(ByRef $x, $y = 5)".data none (by decide) (Or.inl rfl)
    " $y = 5".data (by decide)
